import Mathlib

/-!
Verification of the draft revision store, canonical payload builder and
durable publish task queue of `ncc_publish.py`, through a shallow embedding
of the relevant functions. Python dictionaries keyed by tag name are
embedded as functions from keys to value lists, SQLite tables as Lean lists
of row structures in rowid order, and the random jitter sample of the
backoff computation as an explicit rational parameter.
-/

namespace NccPublish

/-! ### Payload builder -/

/-- A canonical message payload `\x7bkind, created_at, tags, content\x7d` as built
by `_payload_from_draft`; tags are `[key, value]` lists. -/
structure Payload where
  kind : Nat
  created_at : Nat
  tags : List (List String)
  content : String
deriving Repr, DecidableEq

/-- Embedding of `_tags_to_map`: the Python dict maps each stored tag key to
the list of its values in insertion order, and lookups of absent keys give
the empty list (the dict default used at every call site). -/
def tags_to_map (tags : List (String × String)) (k : String) : List String :=
  (tags.filter (fun t => decide (t.1 = k))).map (fun t => t.2)

/-- One `[k, v]` entry from the first stored value when the key is present:
the `if k in tag_map: tags_list.append([k, tag_map[k][0]])` pattern of
`_payload_from_draft`. -/
def emit_single (tm : String → List String) (k : String) : List (List String) :=
  match tm k with
  | [] => []
  | v :: _ => [[k, v]]

/-- Like `emit_single` but also skipping an empty first value: the
`value = tag_map.get(k, [None])[0]; if value:` pattern used for the
published_at tag of a document draft. -/
def emit_truthy_single (tm : String → List String) (k : String) : List (List String) :=
  match tm k with
  | [] => []
  | v :: _ => if v = "" then [] else [[k, v]]

/-- One `[k, v]` entry per stored value: the `for v in tag_map.get(k, [])`
pattern of `_payload_from_draft`. -/
def emit_multi (tm : String → List String) (k : String) : List (List String) :=
  (tm k).map (fun v => [k, v])

/-- The `if title: tags_list.append(["title", title])` pattern: a missing or
empty title contributes nothing. -/
def emit_title (title : Option String) : List (List String) :=
  match title with
  | none => []
  | some t => if t = "" then [] else [["title", t]]

/-- Embedding of `_payload_from_draft` (src/ncc_publish.py lines 865-911):
builds the canonical payload for a draft, with the fixed per-kind tag order. -/
def payload_from_draft (kind : Nat) (d : String) (title : Option String)
    (content : String) (tags : List (String × String)) (created_at : Nat) : Payload :=
  let tm := tags_to_map tags
  let tags_list : List (List String) :=
    if kind = 30050 then
      [["d", d]]
        ++ emit_title title
        ++ emit_truthy_single tm ("published_at")
        ++ emit_single tm ("summary")
        ++ emit_multi tm ("t")
        ++ emit_single tm ("lang")
        ++ emit_single tm ("version")
        ++ emit_multi tm ("supersedes")
        ++ emit_single tm ("license")
        ++ emit_multi tm ("authors")
        ++ emit_single tm ("eventid")
    else
      [["d", d]]
        ++ emit_single tm ("authoritative")
        ++ emit_single tm ("steward")
        ++ emit_single tm ("previous")
        ++ emit_single tm ("reason")
        ++ emit_single tm ("effective_at")
        ++ emit_single tm ("eventid")
  { kind := kind, created_at := created_at, tags := tags_list, content := content }

/-- First stored value for a tag key, reading the stored tag rows directly
(used to phrase the specification side of the canonical-order claim). -/
def firstValue (tags : List (String × String)) (k : String) : Option String :=
  (tags.find? (fun t => decide (t.1 = k))).map (fun t => t.2)

/-- All stored values for a tag key in stored order. -/
def valuesOf (tags : List (String × String)) (k : String) : List String :=
  (tags.filter (fun t => decide (t.1 = k))).map (fun t => t.2)

/-- The canonical document tag order as the specification states it: d, then
(if present) title, published_at, summary, one t entry per topic, lang,
version, one supersedes entry per stored value, license, one authors entry
per stored value, eventid; each single-valued key contributes at most one
entry taken from the first stored value, absent keys contribute nothing. -/
def canonicalDocumentTags (d : String) (title : Option String)
    (tags : List (String × String)) : List (List String) :=
  [["d", d]]
    ++ (match title with
        | none => []
        | some t => if t = "" then [] else [["title", t]])
    ++ (match firstValue tags ("published_at") with
        | none => []
        | some v => if v = "" then [] else [["published_at", v]])
    ++ (match firstValue tags ("summary") with
        | none => []
        | some v => [["summary", v]])
    ++ (valuesOf tags ("t")).map (fun v => ["t", v])
    ++ (match firstValue tags ("lang") with
        | none => []
        | some v => [["lang", v]])
    ++ (match firstValue tags ("version") with
        | none => []
        | some v => [["version", v]])
    ++ (valuesOf tags ("supersedes")).map (fun v => ["supersedes", v])
    ++ (match firstValue tags ("license") with
        | none => []
        | some v => [["license", v]])
    ++ (valuesOf tags ("authors")).map (fun v => ["authors", v])
    ++ (match firstValue tags ("eventid") with
        | none => []
        | some v => [["eventid", v]])

/-! ### Draft store -/

/-- A row of the `drafts` table (see `_db_init`). Timestamps are seconds;
`published_at`, `event_id` are nullable columns, `title` is nullable for
succession records, `status` is always written by the insert path. -/
structure Draft where
  id : Nat
  kind : Nat
  d : String
  title : Option String
  content : String
  created_at : Nat
  updated_at : Nat
  published_at : Option Nat
  event_id : Option String
  status : String
deriving Repr, DecidableEq

/-- The `drafts` table: rows in rowid order plus the next rowid that
`lastrowid` of an insert will report. -/
structure DraftsTable where
  rows : List Draft
  nextId : Nat
deriving Repr, DecidableEq

/-- A row of the `tags` table: (draft_id, key, value), kept in rowid
(insertion) order. -/
abbrev TagRow := Nat × String × String

/-- Embedding of `_db_set_tags` (src lines 573-579): delete every tag row of
the draft, then insert the supplied pairs in the supplied order. -/
def db_set_tags (tbl : List TagRow) (draft_id : Nat) (tags : List (String × String)) :
    List TagRow :=
  tbl.filter (fun r => decide (r.1 ≠ draft_id))
    ++ tags.map (fun kv => (draft_id, kv.1, kv.2))

/-- Embedding of `_db_get_tags` (src lines 595-597): the (key, value) pairs of
the draft's tag rows in stored order. -/
def db_get_tags (tbl : List TagRow) (draft_id : Nat) : List (String × String) :=
  (tbl.filter (fun r => decide (r.1 = draft_id))).map (fun r => (r.2.1, r.2.2))

/-- Embedding of `_db_insert_draft` (src lines 523-545): unconditionally
inserts a fresh drafts row with created_at = updated_at = now, replaces the
new row's tags, and returns the new rowid. The function itself performs no
validation of `d`. -/
def db_insert_draft (db : DraftsTable) (tagTbl : List TagRow)
    (kind : Nat) (d : String) (title : Option String) (content : String)
    (tags : List (String × String)) (status : String)
    (published_at : Option Nat) (now : Nat) :
    DraftsTable × List TagRow × Nat :=
  let draft : Draft :=
    { id := db.nextId, kind := kind, d := d, title := title, content := content,
      created_at := now, updated_at := now, published_at := published_at,
      event_id := none, status := status }
  ({ rows := db.rows ++ [draft], nextId := db.nextId + 1 },
   db_set_tags tagTbl db.nextId tags, db.nextId)

/-- The per-row effect of the update statement of `_db_update_draft`: title,
content and updated_at are always overwritten, while published_at, event_id
and status use `coalesce(?, column)`, keeping the stored value when the
caller supplies none. -/
def updateRow (r : Draft) (title : Option String) (content : String)
    (status : Option String) (published_at : Option Nat)
    (event_id : Option String) (now : Nat) : Draft :=
  { r with
    title := title
    content := content
    updated_at := now
    published_at := match published_at with
      | some v => some v
      | none => r.published_at
    event_id := match event_id with
      | some v => some v
      | none => r.event_id
    status := match status with
      | some v => v
      | none => r.status }

/-- Embedding of `_db_update_draft` (src lines 548-570): applies `updateRow`
to the row whose id matches and replaces the draft's tags wholesale. -/
def db_update_draft (db : DraftsTable) (tagTbl : List TagRow) (draft_id : Nat)
    (title : Option String) (content : String) (tags : List (String × String))
    (status : Option String) (published_at : Option Nat)
    (event_id : Option String) (now : Nat) :
    DraftsTable × List TagRow :=
  ({ db with
      rows := db.rows.map (fun r =>
        if r.id = draft_id then
          updateRow r title content status published_at event_id now
        else r) },
   db_set_tags tagTbl draft_id tags)

/-- A row maximal by updated_at among a list of rows, as delivered by
`order by updated_at desc limit 1`. -/
def maxByUpdated : List Draft → Option Draft
  | [] => none
  | r :: rest =>
    match maxByUpdated rest with
    | none => some r
    | some b => if r.updated_at < b.updated_at then some b else some r

/-- Embedding of `_db_get_latest_draft` (src lines 582-592): among the rows
with the given (kind, d), one with the greatest updated_at, or none. -/
def db_get_latest_draft (db : DraftsTable) (kind : Nat) (d : String) : Option Draft :=
  maxByUpdated (db.rows.filter (fun r => decide (r.kind = kind) && decide (r.d = d)))

/-! ### Publish task queue -/

/-- The module-level queue constants (src lines 141-145). -/
def QUEUE_MAX_ATTEMPTS : Nat := 5

def QUEUE_BASE_DELAY : Nat := 30

def QUEUE_MAX_DELAY : Nat := 3600

/-- The un-jittered backoff base `min(_QUEUE_MAX_DELAY,
_QUEUE_BASE_DELAY * 2 ** max(attempts - 1, 0))` of `_compute_retry_delay`;
`max(attempts - 1, 0)` is truncated subtraction on Nat. -/
def retryBase (attempts : Nat) : Nat :=
  min QUEUE_MAX_DELAY (QUEUE_BASE_DELAY * 2 ^ (attempts - 1))

/-- Embedding of `_compute_retry_delay` (src lines 213-216). The sample of
`random.uniform(-_QUEUE_JITTER, _QUEUE_JITTER)` is passed in as the rational
`u`; the Python `int(...)` truncation coincides with the floor because the
operand is nonnegative for every jitter sample the caller can draw. -/
def compute_retry_delay (attempts : Nat) (u : ℚ) : Nat :=
  max 1 (⌊(retryBase attempts : ℚ) * (1 + u)⌋.toNat)

/-- A row of the `publish_queue` table (see `_db_init`); the columns that the
dispatcher never reads (task payload references, relay list) are carried as
the opaque `task_id`. -/
structure QTask where
  id : Nat
  task_id : String
  attempts : Nat
  max_attempts : Nat
  next_attempt_at : Nat
  created_at : Nat
  last_error : Option String
deriving Repr, DecidableEq

/-- Outcome of one delivery attempt (`_run_publish_task` returning an event
id, or raising). -/
inductive Outcome where
  | success (event_id : String)
  | failure (err : String)
deriving Repr, DecidableEq

/-- A message handed to the `output` notification sink by `_queue_notice`,
one constructor per f-string of `_process_publish_queue_db`. -/
inductive Notice where
  | succeeded (event_id : String)
  | failedPermanently (attempts : Nat) (err : String)
  | retryScheduled (attempts max_attempts : Nat) (err : String)
deriving Repr, DecidableEq

/-- Strict scan order of the due-task query: ascending next_attempt_at, ties
in ascending rowid (the scan of idx_publish_queue_next). -/
def scanBefore (a b : QTask) : Prop :=
  a.next_attempt_at < b.next_attempt_at ∨
    (a.next_attempt_at = b.next_attempt_at ∧ a.id < b.id)

instance (a b : QTask) : Decidable (scanBefore a b) := by
  unfold scanBefore; infer_instance

/-- Embedding of the selection query of `_process_publish_queue_db`
(src lines 371-379): `select * from publish_queue where next_attempt_at <= ?
order by next_attempt_at asc limit 1`, the index scan yielding the first row
in (next_attempt_at, rowid) order. -/
def selectDue (queue : List QTask) (now : Nat) : Option QTask :=
  match queue with
  | [] => none
  | t :: rest =>
    match selectDue rest now with
    | none => if t.next_attempt_at ≤ now then some t else none
    | some b =>
      if t.next_attempt_at ≤ now then
        if scanBefore t b then some t else some b
      else some b

/-- Result of one dispatcher pass: the queue table afterwards, the notices
emitted, and the boolean the function returns. -/
structure DispatchResult where
  queue : List QTask
  notices : List Notice
  progressed : Bool
deriving Repr, DecidableEq

/-- Embedding of `_process_publish_queue_db` (src lines 368-417). `now` is
the `_now()` read before the select, `now2` the re-read taken when a retry is
rescheduled, `u` the jitter sample of that reschedule, and `outcome` stands
for the delivery attempt made under the publish lock. -/
def process_publish_queue_db (queue : List QTask) (now : Nat)
    (outcome : Outcome) (u : ℚ) (now2 : Nat) : DispatchResult :=
  match selectDue queue now with
  | none => { queue := queue, notices := [], progressed := false }
  | some row =>
    match outcome with
    | Outcome.success event_id =>
      { queue := queue.filter (fun t => decide (t.id ≠ row.id)),
        notices := [Notice.succeeded event_id],
        progressed := true }
    | Outcome.failure err =>
      let attempts := row.attempts + 1
      if row.max_attempts ≤ attempts then
        { queue := queue.filter (fun t => decide (t.id ≠ row.id)),
          notices := [Notice.failedPermanently attempts err],
          progressed := true }
      else
        let delay := compute_retry_delay (attempts + 1) u
        { queue := queue.map (fun t =>
            if t.id = row.id then
              { t with attempts := attempts,
                       next_attempt_at := now2 + delay,
                       last_error := some err }
            else t),
          notices := [Notice.retryScheduled attempts row.max_attempts err],
          progressed := true }

/-! ### Author key validation -/

/-- Python str.strip (whitespace removed from both ends), embedded over the
character list so that it evaluates on concrete inputs. -/
def strip (s : String) : String :=
  String.mk
    (((s.data.dropWhile Char.isWhitespace).reverse.dropWhile Char.isWhitespace).reverse)

/-- Python str.startswith, embedded over the character list. -/
def startswith (pre s : String) : Bool :=
  pre.data.isPrefixOf s.data

/-- The error text produced for one offending author value, or none when the
value passes: the body of the loop of `_validate_author_keys`. The public
key parser of the external nostr library is the abstract predicate
`parsePub` (spec section 6: key parsing is an external collaborator). -/
def author_error (parsePub : String → Bool) (value : String) : Option String :=
  if startswith ("nsec") value then
    some (value ++ " looks like a secret key (nsec)")
  else if parsePub value then none
  else some (value ++ " is not a valid npub or hex public key")

/-- The normalization step of `_validate_author_keys`: keep the entries that
are non-empty and not all whitespace, each stripped. -/
def normalize_authors (authors : List String) : List String :=
  (authors.filter (fun i => decide (i ≠ "") && decide (strip i ≠ ""))).map
    (fun i => strip i)

/-- Embedding of `_validate_author_keys` (src lines 726-743): returns the
normalized list when every value passes, otherwise the ValueError message
naming every offending value. (The early returns of the source for an empty
input or an all-blank input coincide with the general path, whose error loop
is vacuous there.) -/
def validate_author_keys (parsePub : String → Bool) (authors : List String) :
    Except String (List String) :=
  let normalized := normalize_authors authors
  let errors := normalized.filterMap (author_error parsePub)
  if errors = [] then Except.ok normalized
  else Except.error
    ("Authors must be npub or hex public keys. Invalid entries: "
      ++ String.intercalate ("; ") errors)

/-! ### Payload preparation at publish time -/

/-- Embedding of `_upsert_single_tag` (src lines 768-771): drop every
well-formed entry for the key (and every malformed empty entry), then append
exactly one fresh `[key, value]` at the end. -/
def upsert_single_tag (tags : List (List String)) (key value : String) :
    List (List String) :=
  tags.filter (fun t =>
    match t with
    | [] => false
    | x :: _ => decide (x ≠ key)) ++ [[key, value]]

/-- Embedding of `_prepare_payload_for_publish` (src lines 774-781), run at
the start of every publish attempt by `_attempt_publish_payload`: overwrite
created_at with now and, for kind 30050, restamp the published_at tag. -/
def prepare_payload_for_publish (p : Payload) (now : Nat) : Payload :=
  let tags := p.tags
  let tags :=
    if p.kind = 30050 then upsert_single_tag tags ("published_at") (toString now)
    else tags
  { p with created_at := now, tags := tags }

/-! ### Concrete sample data used to instantiate the theorems -/

/-- A sample stored document draft row. -/
def sampleDraft : Draft :=
  { id := 1, kind := 30050, d := "ncc-07", title := some ("Foo"),
    content := "body", created_at := 5, updated_at := 5,
    published_at := none, event_id := none, status := "draft" }

/-- A one-row drafts table holding `sampleDraft`. -/
def sampleDb : DraftsTable := { rows := [sampleDraft], nextId := 2 }

/-- A sample due publish task. -/
def sampleTask1 : QTask :=
  { id := 1, task_id := "task-a", attempts := 0, max_attempts := 5,
    next_attempt_at := 50, created_at := 0, last_error := none }

/-- A second sample publish task, due later than `sampleTask1`. -/
def sampleTask2 : QTask :=
  { id := 2, task_id := "task-b", attempts := 3, max_attempts := 5,
    next_attempt_at := 60, created_at := 0, last_error := none }

/-- A sample document payload carrying a stale published_at tag. -/
def samplePayload : Payload :=
  { kind := 30050, created_at := 5,
    tags := [["d", "ncc-07"], ["published_at", "7"], ["t", "a"]],
    content := "body" }

/-! ### Theorems -/

theorem head?_filter {α : Type} (p : α → Bool) (l : List α) :
    (l.filter p).head? = l.find? p := by
  induction l with
  | nil => rfl
  | cons a l ih =>
    cases h : p a <;> simp [List.filter_cons, List.find?_cons, h, ih]

theorem tags_to_map_head? (tags : List (String × String)) (k : String) :
    (tags_to_map tags k).head? = firstValue tags k := by
  simp [tags_to_map, firstValue, List.head?_map, head?_filter]

theorem emit_single_eq (tags : List (String × String)) (k : String) :
    emit_single (tags_to_map tags) k =
      (match firstValue tags k with
       | none => []
       | some v => [[k, v]]) := by
  have h := tags_to_map_head? tags k
  cases hm : tags_to_map tags k with
  | nil =>
    rw [hm] at h
    simp only [List.head?_nil] at h
    simp [emit_single, hm, ← h]
  | cons v rest =>
    rw [hm] at h
    simp only [List.head?_cons] at h
    simp [emit_single, hm, ← h]

theorem emit_truthy_single_eq (tags : List (String × String)) (k : String) :
    emit_truthy_single (tags_to_map tags) k =
      (match firstValue tags k with
       | none => []
       | some v => if v = "" then [] else [[k, v]]) := by
  have h := tags_to_map_head? tags k
  cases hm : tags_to_map tags k with
  | nil =>
    rw [hm] at h
    simp only [List.head?_nil] at h
    simp [emit_truthy_single, hm, ← h]
  | cons v rest =>
    rw [hm] at h
    simp only [List.head?_cons] at h
    simp [emit_truthy_single, hm, ← h]

theorem emit_multi_eq (tags : List (String × String)) (k : String) :
    emit_multi (tags_to_map tags) k = (valuesOf tags k).map (fun v => [k, v]) := by
  rfl

/-- C1: for every stored document draft (kind 30050) the payload builder emits
the canonical tag list in exactly the specified order (d, title,
published_at, summary, t entries, lang, version, supersedes entries,
license, authors entries, eventid), each single-valued key contributing at
most one entry taken from the first stored value, multi-valued keys one
entry per stored value in stored order, and absent optional keys
contributing no entry. -/
theorem payload_from_draft_document_canonical_order
    (d : String) (title : Option String) (content : String)
    (tags : List (String × String)) (created_at : Nat) :
    (payload_from_draft 30050 d title content tags created_at).tags =
      canonicalDocumentTags d title tags := by
  simp [payload_from_draft, canonicalDocumentTags, emit_title,
    emit_single_eq, emit_truthy_single_eq, emit_multi_eq]

theorem filter_ne_then_eq (tbl : List TagRow) (i : Nat) :
    (tbl.filter (fun r => decide (r.1 ≠ i))).filter (fun r => decide (r.1 = i)) = [] := by
  induction tbl with
  | nil => rfl
  | cons a tl ih =>
    by_cases h : a.1 = i <;> simp [List.filter_cons, h, ih]

/-- C6: after replacing a draft's tags, the stored tag rows for that draft
are exactly the supplied pairs in the supplied order (so a subsequent tags
query returns precisely the supplied pairs), and no tag row for that draft
survives unless its pair was re-supplied. -/
theorem db_set_tags_replaces_exactly (tbl : List TagRow) (draft_id : Nat)
    (tags : List (String × String)) :
    db_get_tags (db_set_tags tbl draft_id tags) draft_id = tags ∧
    ∀ r ∈ db_set_tags tbl draft_id tags, r.1 = draft_id → (r.2.1, r.2.2) ∈ tags := by
  constructor
  · unfold db_get_tags db_set_tags
    rw [List.filter_append, filter_ne_then_eq]
    have h2 : (tags.map (fun kv => ((draft_id, kv.1, kv.2) : TagRow))).filter
        (fun r => decide (r.1 = draft_id)) =
        tags.map (fun kv => ((draft_id, kv.1, kv.2) : TagRow)) := by
      induction tags with
      | nil => rfl
      | cons a tl ih => simp [List.filter_cons, ih]
    rw [h2]
    simp [List.map_map, Function.comp]
  · intro r hr hri
    rcases List.mem_append.mp hr with h | h
    · have hne := List.of_mem_filter h
      simp only [decide_eq_true_eq] at hne
      exact absurd hri hne
    · rcases List.mem_map.mp h with ⟨kv, hkv, rfl⟩
      simpa using hkv

theorem db_set_tags_replaces_exactly_witness :
    db_get_tags (db_set_tags [(1, "old", "x")] 1 [("t", "a"), ("authors", "n")]) 1
      = [("t", "a"), ("authors", "n")] :=
  (db_set_tags_replaces_exactly [(1, "old", "x")] 1 [("t", "a"), ("authors", "n")]).1

/-- C7: an update call always overwrites title and content and refreshes
updated_at; each of status, published_at and event_id is overwritten exactly
when the caller supplies a value and retains its prior stored value when the
caller does not; id, kind, d and created_at are unchanged; and rows with a
different id are untouched. -/
theorem db_update_draft_coalesce (db : DraftsTable) (tagTbl : List TagRow)
    (draft_id : Nat) (title : Option String) (content : String)
    (tags : List (String × String)) (status : Option String)
    (published_at : Option Nat) (event_id : Option String) (now : Nat) :
    ∀ r ∈ db.rows,
      (r.id = draft_id →
        updateRow r title content status published_at event_id now ∈
          (db_update_draft db tagTbl draft_id title content tags status
            published_at event_id now).1.rows) ∧
      (r.id ≠ draft_id →
        r ∈ (db_update_draft db tagTbl draft_id title content tags status
          published_at event_id now).1.rows) ∧
      ((updateRow r title content status published_at event_id now).title = title ∧
       (updateRow r title content status published_at event_id now).content = content ∧
       (updateRow r title content status published_at event_id now).updated_at = now ∧
       (∀ s, status = some s →
         (updateRow r title content status published_at event_id now).status = s) ∧
       (status = none →
         (updateRow r title content status published_at event_id now).status = r.status) ∧
       (∀ v, published_at = some v →
         (updateRow r title content status published_at event_id now).published_at = some v) ∧
       (published_at = none →
         (updateRow r title content status published_at event_id now).published_at
           = r.published_at) ∧
       (∀ e, event_id = some e →
         (updateRow r title content status published_at event_id now).event_id = some e) ∧
       (event_id = none →
         (updateRow r title content status published_at event_id now).event_id
           = r.event_id) ∧
       (updateRow r title content status published_at event_id now).id = r.id ∧
       (updateRow r title content status published_at event_id now).kind = r.kind ∧
       (updateRow r title content status published_at event_id now).d = r.d ∧
       (updateRow r title content status published_at event_id now).created_at
         = r.created_at) := by
  intro r hr
  refine ⟨?_, ?_, ?_⟩
  · intro h
    have hm := List.mem_map_of_mem (fun r =>
      if r.id = draft_id then updateRow r title content status published_at event_id now
      else r) hr
    simpa [db_update_draft, h] using hm
  · intro h
    have hm := List.mem_map_of_mem (fun r =>
      if r.id = draft_id then updateRow r title content status published_at event_id now
      else r) hr
    simpa [db_update_draft, h] using hm
  · refine ⟨rfl, rfl, rfl, ?_, ?_, ?_, ?_, ?_, ?_, rfl, rfl, rfl, rfl⟩
    · intro s hs; subst hs; rfl
    · intro hs; subst hs; rfl
    · intro v hv; subst hv; rfl
    · intro hv; subst hv; rfl
    · intro e he; subst he; rfl
    · intro he; subst he; rfl

theorem db_update_draft_coalesce_witness :
    updateRow sampleDraft (some ("Bar")) ("body2") none none none 9 ∈
      (db_update_draft sampleDb [] 1 (some ("Bar")) ("body2") [] none none none 9).1.rows :=
  ((db_update_draft_coalesce sampleDb [] 1 (some ("Bar")) ("body2") [] none none none 9)
    sampleDraft (by simp [sampleDb])).1 (by rfl)

/-- C3 counterexample: the insert operation called with d equal to the empty
string does not fail; it creates a draft row whose identifier is the empty
string, because the source function performs no validation of d. -/
theorem db_insert_draft_empty_d_creates_row :
    ((db_insert_draft { rows := [], nextId := 1 } [] 30050 ("") none ("body") []
        ("draft") none 100).1.rows.map Draft.d) = [""] := by
  rfl

/-- C3 amended: the draft-store insert operation performs no identifier
validation; for every argument list, including an empty d, it appends
exactly one new draft row carrying the supplied fields (created_at and
updated_at set to now, event_id null) and returns the new row's id. Empty
identifiers are rejected by the interactive callers before insert is
reached, not by the store operation. -/
theorem db_insert_draft_always_creates (db : DraftsTable) (tagTbl : List TagRow)
    (kind : Nat) (d : String) (title : Option String) (content : String)
    (tags : List (String × String)) (status : String) (published_at : Option Nat)
    (now : Nat) :
    (db_insert_draft db tagTbl kind d title content tags status published_at now).1.rows
      = db.rows ++ [{ id := db.nextId, kind := kind, d := d, title := title,
                      content := content, created_at := now, updated_at := now,
                      published_at := published_at, event_id := none,
                      status := status }] ∧
    (db_insert_draft db tagTbl kind d title content tags status published_at now).2.2
      = db.nextId ∧
    (db_insert_draft db tagTbl kind d title content tags status published_at now).2.1
      = db_set_tags tagTbl db.nextId tags :=
  ⟨rfl, rfl, rfl⟩

theorem maxByUpdated_none_iff (l : List Draft) : maxByUpdated l = none ↔ l = [] := by
  cases l with
  | nil => simp [maxByUpdated]
  | cons r rest =>
    cases hm : maxByUpdated rest with
    | none => simp [maxByUpdated, hm]
    | some b =>
      simp only [maxByUpdated, hm]
      constructor
      · intro h; split at h <;> cases h
      · intro h; cases h

theorem maxByUpdated_spec (l : List Draft) (r : Draft) (h : maxByUpdated l = some r) :
    r ∈ l ∧ ∀ u ∈ l, u.updated_at ≤ r.updated_at := by
  induction l generalizing r with
  | nil => cases h
  | cons a rest ih =>
    cases hm : maxByUpdated rest with
    | none =>
      have hrest : rest = [] := (maxByUpdated_none_iff rest).mp hm
      subst hrest
      simp only [maxByUpdated] at h
      cases h
      simp
    | some b =>
      have hb := ih b hm
      simp only [maxByUpdated, hm] at h
      by_cases hlt : a.updated_at < b.updated_at
      · rw [if_pos hlt] at h
        cases h
        refine ⟨List.mem_cons_of_mem _ hb.1, ?_⟩
        intro u hu
        rcases List.mem_cons.mp hu with rfl | hu
        · exact le_of_lt hlt
        · exact hb.2 u hu
      · rw [if_neg hlt] at h
        cases h
        refine ⟨List.mem_cons_self _ _, ?_⟩
        intro u hu
        rcases List.mem_cons.mp hu with rfl | hu
        · exact le_refl _
        · exact (hb.2 u hu).trans (not_lt.mp hlt)

/-- C8: the latest query returns none exactly when no row with the given
(kind, d) exists, and otherwise returns a stored row with that (kind, d)
whose updated_at is greatest among all rows sharing it. -/
theorem db_get_latest_draft_spec (db : DraftsTable) (kind : Nat) (d : String) :
    (db_get_latest_draft db kind d = none ↔
      ∀ r ∈ db.rows, ¬(r.kind = kind ∧ r.d = d)) ∧
    ∀ r, db_get_latest_draft db kind d = some r →
      r ∈ db.rows ∧ r.kind = kind ∧ r.d = d ∧
        ∀ u ∈ db.rows, u.kind = kind → u.d = d → u.updated_at ≤ r.updated_at := by
  constructor
  · rw [db_get_latest_draft, maxByUpdated_none_iff]
    constructor
    · intro h r hr hkd
      have : r ∈ db.rows.filter (fun r => decide (r.kind = kind) && decide (r.d = d)) := by
        simp [List.mem_filter, hr, hkd.1, hkd.2]
      rw [h] at this
      cases this
    · intro h
      apply List.eq_nil_iff_forall_not_mem.mpr
      intro r hr
      have hf := List.mem_filter.mp hr
      have := h r hf.1
      simp only [Bool.and_eq_true, decide_eq_true_eq] at hf
      exact this ⟨hf.2.1, hf.2.2⟩
  · intro r h
    obtain ⟨hmem, hmax⟩ := maxByUpdated_spec _ r h
    have hf := List.mem_filter.mp hmem
    simp only [Bool.and_eq_true, decide_eq_true_eq] at hf
    refine ⟨hf.1, hf.2.1, hf.2.2, ?_⟩
    intro u hu hk hd
    apply hmax
    simp [List.mem_filter, hu, hk, hd]

theorem db_get_latest_draft_spec_witness :
    sampleDraft ∈ sampleDb.rows ∧ sampleDraft.kind = 30050 ∧ sampleDraft.d = "ncc-07" :=
  have h := ((db_get_latest_draft_spec sampleDb 30050 ("ncc-07")).2 sampleDraft (by rfl))
  ⟨h.1, h.2.1, h.2.2.1⟩

theorem selectDue_due (queue : List QTask) (now : Nat) (t : QTask)
    (h : selectDue queue now = some t) : t ∈ queue ∧ t.next_attempt_at ≤ now := by
  induction queue generalizing t with
  | nil => simp [selectDue] at h
  | cons a rest ih =>
    cases hm : selectDue rest now with
    | none =>
      by_cases hd : a.next_attempt_at ≤ now
      · simp only [selectDue, hm, if_pos hd, Option.some.injEq] at h
        subst h
        exact ⟨List.mem_cons_self _ _, hd⟩
      · simp only [selectDue, hm, if_neg hd] at h
        simp at h
    | some b =>
      have hb := ih b hm
      by_cases hd : a.next_attempt_at ≤ now
      · by_cases hs : scanBefore a b
        · simp only [selectDue, hm, if_pos hd, if_pos hs, Option.some.injEq] at h
          subst h
          exact ⟨List.mem_cons_self _ _, hd⟩
        · simp only [selectDue, hm, if_pos hd, if_neg hs, Option.some.injEq] at h
          subst h
          exact ⟨List.mem_cons_of_mem _ hb.1, hb.2⟩
      · simp only [selectDue, hm, if_neg hd, Option.some.injEq] at h
        subst h
        exact ⟨List.mem_cons_of_mem _ hb.1, hb.2⟩

theorem selectDue_none_iff (queue : List QTask) (now : Nat) :
    selectDue queue now = none ↔ ∀ t ∈ queue, ¬ t.next_attempt_at ≤ now := by
  induction queue with
  | nil => simp [selectDue]
  | cons a rest ih =>
    cases hm : selectDue rest now with
    | none =>
      have hnone := ih.mp hm
      by_cases hd : a.next_attempt_at ≤ now
      · simp only [selectDue, hm, if_pos hd]
        constructor
        · intro h; simp at h
        · intro h; exact absurd hd (h a (List.mem_cons_self _ _))
      · simp only [selectDue, hm, if_neg hd]
        constructor
        · intro _ t ht
          rcases List.mem_cons.mp ht with rfl | ht
          · exact hd
          · exact hnone t ht
        · intro _; trivial
    | some b =>
      have hb := selectDue_due rest now b hm
      constructor
      · intro h
        exfalso
        by_cases hd : a.next_attempt_at ≤ now
        · by_cases hs : scanBefore a b
          · simp only [selectDue, hm, if_pos hd, if_pos hs] at h; simp at h
          · simp only [selectDue, hm, if_pos hd, if_neg hs] at h; simp at h
        · simp only [selectDue, hm, if_neg hd] at h; simp at h
      · intro h
        exact absurd hb.2 (h b (List.mem_cons_of_mem _ hb.1))

theorem selectDue_min (queue : List QTask) (now : Nat) (t : QTask)
    (h : selectDue queue now = some t) :
    ∀ u ∈ queue, u.next_attempt_at ≤ now →
      t.next_attempt_at < u.next_attempt_at ∨
        (t.next_attempt_at = u.next_attempt_at ∧ t.id ≤ u.id) := by
  induction queue generalizing t with
  | nil => simp [selectDue] at h
  | cons a rest ih =>
    cases hm : selectDue rest now with
    | none =>
      have hnone := (selectDue_none_iff rest now).mp hm
      by_cases hd : a.next_attempt_at ≤ now
      · simp only [selectDue, hm, if_pos hd, Option.some.injEq] at h
        subst h
        intro u hu hdu
        rcases List.mem_cons.mp hu with rfl | hu
        · right; exact ⟨rfl, le_refl _⟩
        · exact absurd hdu (hnone u hu)
      · simp only [selectDue, hm, if_neg hd] at h
        simp at h
    | some b =>
      have ihb := ih b hm
      by_cases hd : a.next_attempt_at ≤ now
      · by_cases hs : scanBefore a b
        · simp only [selectDue, hm, if_pos hd, if_pos hs, Option.some.injEq] at h
          subst h
          intro u hu hdu
          rcases List.mem_cons.mp hu with rfl | hu
          · right; exact ⟨rfl, le_refl _⟩
          · have h1 := ihb u hu hdu
            unfold scanBefore at hs
            omega
        · simp only [selectDue, hm, if_pos hd, if_neg hs, Option.some.injEq] at h
          subst h
          intro u hu hdu
          rcases List.mem_cons.mp hu with rfl | hu
          · unfold scanBefore at hs
            omega
          · exact ihb u hu hdu
      · simp only [selectDue, hm, if_neg hd, Option.some.injEq] at h
        subst h
        intro u hu hdu
        rcases List.mem_cons.mp hu with rfl | hu
        · exact absurd hdu hd
        · exact ihb u hu hdu

/-- C5: a dispatch pass considers only tasks whose next_attempt_at is at most
the current time; when one is selected, it is a due task least in the
(next_attempt_at, row id) order, so ties on next_attempt_at break
deterministically by row id; and when no task is due the pass returns false,
emits no notice and leaves the queue unchanged. -/
theorem process_publish_queue_db_selection (queue : List QTask) (now : Nat) :
    (∀ t, selectDue queue now = some t →
      t ∈ queue ∧ t.next_attempt_at ≤ now ∧
        ∀ u ∈ queue, u.next_attempt_at ≤ now →
          t.next_attempt_at < u.next_attempt_at ∨
            (t.next_attempt_at = u.next_attempt_at ∧ t.id ≤ u.id)) ∧
    (selectDue queue now = none ↔ ∀ t ∈ queue, ¬ t.next_attempt_at ≤ now) ∧
    (selectDue queue now = none →
      ∀ outcome u now2, process_publish_queue_db queue now outcome u now2 =
        { queue := queue, notices := [], progressed := false }) := by
  refine ⟨?_, selectDue_none_iff queue now, ?_⟩
  · intro t h
    exact ⟨(selectDue_due queue now t h).1, (selectDue_due queue now t h).2,
      selectDue_min queue now t h⟩
  · intro h outcome u now2
    simp [process_publish_queue_db, h]

theorem process_publish_queue_db_selection_witness :
    sampleTask1 ∈ [sampleTask1, sampleTask2] ∧ sampleTask1.next_attempt_at ≤ 100 :=
  have h := (process_publish_queue_db_selection [sampleTask1, sampleTask2] 100).1
    sampleTask1 (by decide)
  ⟨h.1, h.2.1⟩

/-- C2: for the selected due task: a raising attempt whose incremented count
is still below max_attempts keeps the row, with attempts incremented by one,
next_attempt_at advanced to the re-read clock plus the recomputed backoff
delay, and last_error set to the error text; a raising attempt whose
incremented count reaches max_attempts deletes the row and emits exactly one
terminal-abandonment notice; and a successful attempt deletes the row
immediately, emitting only the success notice and scheduling nothing
further. -/
theorem process_publish_queue_db_outcomes (queue : List QTask) (now : Nat)
    (row : QTask) (u : ℚ) (now2 : Nat)
    (h : selectDue queue now = some row) :
    (∀ err, row.attempts + 1 < row.max_attempts →
      process_publish_queue_db queue now (Outcome.failure err) u now2 =
        { queue := queue.map (fun t =>
            if t.id = row.id then
              { t with attempts := row.attempts + 1,
                       next_attempt_at := now2 + compute_retry_delay (row.attempts + 1 + 1) u,
                       last_error := some err }
            else t),
          notices := [Notice.retryScheduled (row.attempts + 1) row.max_attempts err],
          progressed := true } ∧
      { row with attempts := row.attempts + 1,
                 next_attempt_at := now2 + compute_retry_delay (row.attempts + 1 + 1) u,
                 last_error := some err } ∈
        (process_publish_queue_db queue now (Outcome.failure err) u now2).queue) ∧
    (∀ err, row.max_attempts ≤ row.attempts + 1 →
      process_publish_queue_db queue now (Outcome.failure err) u now2 =
        { queue := queue.filter (fun t => decide (t.id ≠ row.id)),
          notices := [Notice.failedPermanently (row.attempts + 1) err],
          progressed := true }) ∧
    (∀ event_id,
      process_publish_queue_db queue now (Outcome.success event_id) u now2 =
        { queue := queue.filter (fun t => decide (t.id ≠ row.id)),
          notices := [Notice.succeeded event_id],
          progressed := true }) := by
  refine ⟨?_, ?_, ?_⟩
  · intro err hlt
    have hle : ¬ row.max_attempts ≤ row.attempts + 1 := by omega
    have heq : process_publish_queue_db queue now (Outcome.failure err) u now2 =
        { queue := queue.map (fun t =>
            if t.id = row.id then
              { t with attempts := row.attempts + 1,
                       next_attempt_at := now2 + compute_retry_delay (row.attempts + 1 + 1) u,
                       last_error := some err }
            else t),
          notices := [Notice.retryScheduled (row.attempts + 1) row.max_attempts err],
          progressed := true } := by
      simp [process_publish_queue_db, h, hle]
    refine ⟨heq, ?_⟩
    rw [heq]
    have hmem : row ∈ queue := (selectDue_due queue now row h).1
    have hmap := List.mem_map_of_mem (fun t =>
      if t.id = row.id then
        { t with attempts := row.attempts + 1,
                 next_attempt_at := now2 + compute_retry_delay (row.attempts + 1 + 1) u,
                 last_error := some err }
      else t) hmem
    simpa using hmap
  · intro err hge
    simp [process_publish_queue_db, h, hge]
  · intro event_id
    simp [process_publish_queue_db, h]

theorem process_publish_queue_db_outcomes_witness :
    process_publish_queue_db [sampleTask1, sampleTask2] 100 (Outcome.success ("ev")) 0 101 =
      { queue := [sampleTask2], notices := [Notice.succeeded ("ev")], progressed := true } := by
  have h := (process_publish_queue_db_outcomes [sampleTask1, sampleTask2] 100 sampleTask1
    0 101 (by decide)).2.2 ("ev")
  rw [h]
  decide

theorem retryBase_mono (n m : Nat) (h : n ≤ m) : retryBase n ≤ retryBase m := by
  unfold retryBase QUEUE_MAX_DELAY QUEUE_BASE_DELAY
  exact min_le_min (le_refl _)
    (Nat.mul_le_mul_left _ (Nat.pow_le_pow_right (by norm_num) (Nat.sub_le_sub_right h 1)))

theorem retryBase_lower (n : Nat) :
    ((min 2880 (24 * 2 ^ (n - 1)) : Nat) : ℚ) = (retryBase n : ℚ) * (4/5) := by
  unfold retryBase QUEUE_MAX_DELAY QUEUE_BASE_DELAY
  rcases le_total (30 * 2 ^ (n - 1)) 3600 with h | h
  · have h24 : 24 * 2 ^ (n - 1) ≤ 2880 := by omega
    rw [min_eq_right h, min_eq_right h24]
    push_cast
    ring
  · have h24 : 2880 ≤ 24 * 2 ^ (n - 1) := by omega
    rw [min_eq_left h, min_eq_left h24]
    norm_num

/-- C4: for every positive attempt number n and every jitter sample u with
magnitude at most 0.2, the retry delay is the capped exponential base
min(3600, 30 * 2^(n-1)) scaled by the factor 1 + u and floored to at least
one second; every possible returned value lies between 0.8 times the capped
base and 1.2 times the maximum delay (4320); and the un-jittered base is
non-decreasing in the attempt number. -/
theorem compute_retry_delay_bounds (n : Nat) (u : ℚ)
    (hn : 1 ≤ n) (hu1 : -(1/5) ≤ u) (hu2 : u ≤ 1/5) :
    min 2880 (24 * 2 ^ (n - 1)) ≤ compute_retry_delay n u ∧
    compute_retry_delay n u ≤ 4320 ∧
    ∀ m, n ≤ m → retryBase n ≤ retryBase m := by
  have hbase_le : retryBase n ≤ 3600 := min_le_left _ _
  have hj1 : (4/5 : ℚ) ≤ 1 + u := by linarith
  have hj2 : (1 + u : ℚ) ≤ 6/5 := by linarith
  have hB0 : (0 : ℚ) ≤ (retryBase n : ℚ) := by positivity
  refine ⟨?_, ?_, fun m hm => retryBase_mono n m hm⟩
  · have hlow : ((min 2880 (24 * 2 ^ (n - 1)) : Nat) : ℚ) ≤ (retryBase n : ℚ) * (1 + u) := by
      rw [retryBase_lower n]
      calc (retryBase n : ℚ) * (4/5) = (4/5) * (retryBase n : ℚ) := by ring
        _ ≤ (1 + u) * (retryBase n : ℚ) := mul_le_mul_of_nonneg_right hj1 hB0
        _ = (retryBase n : ℚ) * (1 + u) := by ring
    have hfloor : ((min 2880 (24 * 2 ^ (n - 1)) : Nat) : ℤ) ≤
        ⌊(retryBase n : ℚ) * (1 + u)⌋ := by
      rw [Int.le_floor]
      exact_mod_cast hlow
    unfold compute_retry_delay
    refine le_trans ?_ (le_max_right 1 _)
    omega
  · unfold compute_retry_delay
    have h1 : (retryBase n : ℚ) ≤ 3600 := by exact_mod_cast hbase_le
    have hmul : (retryBase n : ℚ) * (1 + u) ≤ 3600 * (6/5) :=
      mul_le_mul h1 hj2 (le_trans (by norm_num) hj1) (by norm_num)
    have hfl : (⌊(retryBase n : ℚ) * (1 + u)⌋ : ℚ) ≤ 4320 :=
      le_trans (Int.floor_le _) (by linarith)
    have hfl2 : ⌊(retryBase n : ℚ) * (1 + u)⌋ ≤ (4320 : ℤ) := by exact_mod_cast hfl
    have ht : (⌊(retryBase n : ℚ) * (1 + u)⌋).toNat ≤ 4320 := by omega
    exact max_le (by norm_num) ht

theorem compute_retry_delay_bounds_witness :
    min 2880 (24 * 2 ^ (3 - 1)) ≤ compute_retry_delay 3 (1/10) ∧
    compute_retry_delay 3 (1/10) ≤ 4320 := by
  have h := compute_retry_delay_bounds 3 (1/10) (by norm_num) (by norm_num) (by norm_num)
  exact ⟨h.1, h.2.1⟩

theorem author_error_eq_none (parsePub : String → Bool) (v : String) :
    author_error parsePub v = none ↔
      (startswith ("nsec") v = false ∧ parsePub v = true) := by
  unfold author_error
  by_cases h1 : startswith ("nsec") v
  · simp [h1]
  · by_cases h2 : parsePub v <;> simp [h1, h2]

/-- C9: author validation succeeds exactly when every normalized value is
neither nsec-prefixed nor unparseable, returning the normalized
(whitespace-stripped, blanks removed) list; if any normalized value starts
with nsec or fails public-key parsing, it returns the ValueError message
built from one error entry per offending value, each entry naming that
value, and returns no list at all (so nothing is available to persist). -/
theorem validate_author_keys_spec (parsePub : String → Bool) (authors : List String) :
    ((∀ v ∈ normalize_authors authors, startswith ("nsec") v = false ∧ parsePub v = true) →
      validate_author_keys parsePub authors = Except.ok (normalize_authors authors)) ∧
    ((∃ v ∈ normalize_authors authors, startswith ("nsec") v = true ∨ parsePub v = false) →
      validate_author_keys parsePub authors =
        Except.error
          ("Authors must be npub or hex public keys. Invalid entries: "
            ++ String.intercalate ("; ")
                ((normalize_authors authors).filterMap (author_error parsePub)))) ∧
    (∀ v ∈ normalize_authors authors,
      (startswith ("nsec") v = true →
        (v ++ " looks like a secret key (nsec)") ∈
          (normalize_authors authors).filterMap (author_error parsePub)) ∧
      (startswith ("nsec") v = false → parsePub v = false →
        (v ++ " is not a valid npub or hex public key") ∈
          (normalize_authors authors).filterMap (author_error parsePub))) := by
  refine ⟨?_, ?_, ?_⟩
  · intro h
    have herr : (normalize_authors authors).filterMap (author_error parsePub) = [] := by
      apply List.filterMap_eq_nil_iff.mpr
      intro v hv
      exact (author_error_eq_none parsePub v).mpr (h v hv)
    unfold validate_author_keys
    simp [herr]
  · intro ⟨v, hv, hoff⟩
    have hsome : ∃ e, author_error parsePub v = some e := by
      unfold author_error
      rcases hoff with h1 | h1
      · simp [h1]
      · by_cases h2 : startswith ("nsec") v <;> simp [h1, h2]
    obtain ⟨e, he⟩ := hsome
    have hmem : e ∈ (normalize_authors authors).filterMap (author_error parsePub) :=
      List.mem_filterMap.mpr ⟨v, hv, he⟩
    have hne : (normalize_authors authors).filterMap (author_error parsePub) ≠ [] :=
      List.ne_nil_of_mem hmem
    unfold validate_author_keys
    simp [hne]
  · intro v hv
    constructor
    · intro h1
      refine List.mem_filterMap.mpr ⟨v, hv, ?_⟩
      unfold author_error
      simp [h1]
    · intro h1 h2
      refine List.mem_filterMap.mpr ⟨v, hv, ?_⟩
      unfold author_error
      simp [h1, h2]

theorem validate_author_keys_spec_witness :
    validate_author_keys (fun s => decide (s = "pk")) ["pk", "nsec1a"] =
      Except.error
        ("Authors must be npub or hex public keys. Invalid entries: "
          ++ "nsec1a looks like a secret key (nsec)") := by
  have h := (validate_author_keys_spec (fun s => decide (s = "pk")) ["pk", "nsec1a"]).2.1
  rw [h (by decide)]
  rfl

/-- C10: preparing a payload at the start of a publish attempt overwrites
created_at with the current time, so a retried or imported payload never
keeps its original created_at; and for kind 30050 every existing
published_at tag entry is removed and a single fresh stamp is appended at
the tail of the tag list (not at its canonical position). -/
theorem prepare_payload_for_publish_spec (p : Payload) (now : Nat) :
    (prepare_payload_for_publish p now).created_at = now ∧
    (p.kind = 30050 →
      (prepare_payload_for_publish p now).tags =
        p.tags.filter (fun t =>
          match t with
          | [] => false
          | x :: _ => decide (x ≠ "published_at")) ++ [["published_at", toString now]] ∧
      (∀ t ∈ (prepare_payload_for_publish p now).tags.dropLast,
        t.head? ≠ some ("published_at")) ∧
      (prepare_payload_for_publish p now).tags.getLast? =
        some [("published_at"), toString now]) := by
  constructor
  · rfl
  · intro hk
    have heq : (prepare_payload_for_publish p now).tags =
        p.tags.filter (fun t =>
          match t with
          | [] => false
          | x :: _ => decide (x ≠ "published_at")) ++ [["published_at", toString now]] := by
      simp [prepare_payload_for_publish, upsert_single_tag, hk]
    refine ⟨heq, ?_, ?_⟩
    · intro t ht
      rw [heq, List.dropLast_concat] at ht
      have hp := List.of_mem_filter ht
      cases t with
      | nil => simp at hp
      | cons x rest =>
        simp only [decide_eq_true_eq] at hp
        simp [hp]
    · rw [heq, List.getLast?_concat]

theorem prepare_payload_for_publish_spec_witness :
    (prepare_payload_for_publish samplePayload 99).created_at = 99 ∧
    (prepare_payload_for_publish samplePayload 99).tags.getLast? =
      some [("published_at"), ("99")] := by
  have h := prepare_payload_for_publish_spec samplePayload 99
  exact ⟨h.1, by rw [(h.2 (by rfl)).2.2]; rfl⟩

end NccPublish
